import Mathlib

/-!
A verification development for the TurboShaft IR graph storage core
(`OperationBuffer`, `Block`, `Graph` from the sampled `graph.h`).

The C++ code is shallowly embedded:
* the arena (`OperationBuffer`) becomes a record of a slot-content list, a
  write cursor (`end_ - begin_`, in slots) and the parallel size table;
* byte offsets, slot counts and table entries are `Nat`, with the `uint16_t`
  truncation of size-table stores made explicit (`% 65536`);
* `Block*` pointers become indices into the graph's block pool list;
* debug assertions (`DCHECK`) appear as hypotheses of the theorems, or as
  guards of the `Option`-valued trace semantics `step`.

Types that live in the (unsampled) `operations.h` — `OpIndex`,
`OperationStorageSlot`, `kSlotsPerId` — are modelled from the spec where
noted.
-/

namespace Turboshaft

/-- Modelled from the spec: a storage unit ("conceptually 8 bytes") from
`operations.h`; the slot's byte content is abstracted as one natural
number per slot. -/
abbrev OperationStorageSlot := Nat

/-- Size in bytes of one storage slot (`sizeof(OperationStorageSlot)`). -/
def slotSize : Nat := 8

/-- Modelled from the spec: `kSlotsPerId` from `operations.h`.  The spec's
size-table invariant speaks of "slot-id(i)" and lets a run occupy as little
as one unit, so identifiers are issued per slot. -/
def kSlotsPerId : Nat := 1

/-- Modelled from the spec: `OpIndex` from `operations.h` — "an opaque
handle encoding a byte offset into the arena". -/
structure OpIndex where
  offset : Nat
deriving DecidableEq, Repr

/-- `OpIndex::id()`: the compact id of an operation,
`offset / sizeof(OperationStorageSlot) / kSlotsPerId`. -/
def OpIndex.id (i : OpIndex) : Nat := i.offset / slotSize / kSlotsPerId

/-- `OperationBuffer`: the growable arena.  `buf` holds the contents of all
`capacity` slots (`begin_ .. end_cap_`; slots past the write cursor model
uninitialized memory as `0`), `endPos` is `end_ - begin_` in slots, and
`sizes` is the `uint16_t` side table `operation_sizes_`. -/
structure OperationBuffer where
  buf : List OperationStorageSlot
  endPos : Nat
  sizes : List Nat
deriving DecidableEq, Repr

namespace OperationBuffer

/-- `capacity()` = `end_cap_ - begin_`. -/
def capacity (b : OperationBuffer) : Nat := b.buf.length

/-- `size()` = `end_ - begin_`. -/
def size (b : OperationBuffer) : Nat := b.endPos

/-- The `OperationBuffer(zone, initial_capacity)` constructor: fresh slot
storage and a size table of `(initial_capacity + 1) / kSlotsPerId`
entries.  Fresh zone memory is uninitialized; it is modelled as zeros. -/
def mkBuffer (initial_capacity : Nat) : OperationBuffer :=
  { buf := List.replicate initial_capacity 0
    endPos := 0
    sizes := List.replicate ((initial_capacity + 1) / kSlotsPerId) 0 }

/-- The doubling loop of `Grow`: `while (new_capacity < min_capacity)
new_capacity *= 2`.  (With `c = 0` the C++ loop would not terminate; that
state is unreachable because buffers are created with positive capacity,
and the model returns `m` there.) -/
def growCapacity (c m : Nat) : Nat :=
  if h : c < m then
    if hc : c = 0 then m
    else growCapacity (2 * c) m
  else c
termination_by m - c
decreasing_by
  simp_wf
  omega

/-- `Grow(min_capacity)`: reallocate both arrays, `memcpy`ing the used
prefix (`size` slots, `size / kSlotsPerId` size-table entries); the write
cursor keeps pointing at slot `size` of the new storage.  The hard
`CHECK_LT(new_capacity, 2^32 / 8)` bounds offsets below `2^32`; arithmetic
therefore never wraps and is modelled on `Nat`. -/
def Grow (b : OperationBuffer) (min_capacity : Nat) : OperationBuffer :=
  let sz := b.endPos
  let new_capacity := growCapacity (2 * b.capacity) min_capacity
  { buf := b.buf.take sz ++ List.replicate (new_capacity - sz) 0
    endPos := sz
    sizes := b.sizes.take (sz / kSlotsPerId) ++
      List.replicate (new_capacity / kSlotsPerId - sz / kSlotsPerId) 0 }

/-- The growth check at the head of `Allocate`: grow exactly when fewer
than `slot_count` slots remain between the cursor and the capacity end. -/
def ensureSpace (b : OperationBuffer) (slot_count : Nat) : OperationBuffer :=
  if b.capacity - b.endPos < slot_count then b.Grow (b.capacity + slot_count) else b

/-- `Allocate(slot_count)`: grow if fewer than `slot_count` slots remain,
reserve the run at the cursor, and store the length at the first and last
id of the run (`operation_sizes_` is `uint16_t`, hence `% 65536`).
Returns the buffer and the `OpIndex` of the reserved run. -/
def Allocate (b : OperationBuffer) (slot_count : Nat) : OperationBuffer × OpIndex :=
  let b := b.ensureSpace slot_count
  let idx : OpIndex := ⟨b.endPos * slotSize⟩
  let sizes :=
    (b.sizes.set idx.id (slot_count % 65536)).set
      ((OpIndex.mk (idx.offset + slot_count * slotSize)).id - 1) (slot_count % 65536)
  ({ b with endPos := b.endPos + slot_count, sizes := sizes }, idx)

/-- `RemoveLast()`: pop the most recent run using the size table entry just
before the cursor. -/
def RemoveLast (b : OperationBuffer) : OperationBuffer :=
  { b with endPos := b.endPos - b.sizes.getD (b.endPos - 1) 0 }

/-- `SlotCount(idx)` = `operation_sizes_[idx.id()]`. -/
def SlotCount (b : OperationBuffer) (idx : OpIndex) : Nat :=
  b.sizes.getD idx.id 0

/-- `Next(idx)`: step forward by this run's slot count. -/
def Next (b : OperationBuffer) (idx : OpIndex) : OpIndex :=
  ⟨idx.offset + b.sizes.getD idx.id 0 * slotSize⟩

/-- `Previous(idx)`: step backward by the previous run's slot count, read
at id `idx.id() - 1`. -/
def Previous (b : OperationBuffer) (idx : OpIndex) : OpIndex :=
  ⟨idx.offset - b.sizes.getD (idx.id - 1) 0 * slotSize⟩

/-- `BeginIndex()`. -/
def BeginIndex (_ : OperationBuffer) : OpIndex := ⟨0⟩

/-- `EndIndex()` = `Index(end_)`: the one-past-the-end offset. -/
def EndIndex (b : OperationBuffer) : OpIndex := ⟨b.endPos * slotSize⟩

/-- `Reset()`: rewind the cursor, keeping capacity. -/
def Reset (b : OperationBuffer) : OperationBuffer := { b with endPos := 0 }

/-- Write consecutive slot values starting at slot position `p`
(the effect of a placement-`new` construction into `Get(idx)`). -/
def writeList : List OperationStorageSlot → Nat → List OperationStorageSlot →
    List OperationStorageSlot
  | l, _, [] => l
  | l, p, c :: cs => writeList (l.set p c) (p + 1) cs

/-- Store a freshly constructed record's slots at `idx`. -/
def writeRun (b : OperationBuffer) (idx : OpIndex) (content : List OperationStorageSlot) :
    OperationBuffer :=
  { b with buf := writeList b.buf (idx.offset / slotSize) content }

/-- Modelled from the spec: `Graph::Add<Op>` / `Op::New` ("every operation
kind must ... construct itself into a caller-supplied storage run",
`operations.h` is unsampled).  Allocation of the run followed by in-place
construction of the record's slot contents. -/
def AllocateOp (b : OperationBuffer) (slot_count : Nat)
    (content : List OperationStorageSlot) : OperationBuffer × OpIndex :=
  let r := b.Allocate slot_count
  (writeRun r.1 r.2 content, r.2)

/-- The run of slot values `Get(idx)` points at, read for `k` slots. -/
def readRun (b : OperationBuffer) (idx : OpIndex) (k : Nat) :
    List OperationStorageSlot :=
  (List.range k).map (fun j => b.buf.getD (idx.offset / slotSize + j) 0)

/-- The full record denoted by `idx`: its run, as long as the size table
says. -/
def getRecord (b : OperationBuffer) (idx : OpIndex) : List OperationStorageSlot :=
  b.readRun idx (b.SlotCount idx)

/-- `Graph::Replace<Op>(replaced, ...)`, inlining the `ReplaceScope`
constructor (save cursor and old slot count — a `uint16_t` field — and
rewind the cursor to the replaced run), the `Op::New` construction, and
the `~ReplaceScope` destructor (restore the cursor and force-write the
*original* slot count at both endpoint ids of the replaced run). -/
def Replace (b : OperationBuffer) (replaced : OpIndex) (new_slot_count : Nat)
    (content : List OperationStorageSlot) : OperationBuffer :=
  let old_end := b.endPos
  let old_slot_count := b.SlotCount replaced % 65536
  let b1 : OperationBuffer := { b with endPos := replaced.offset / slotSize }
  let r := b1.AllocateOp new_slot_count content
  { r.1 with
    endPos := old_end
    sizes :=
      (r.1.sizes.set replaced.id old_slot_count).set
        ((OpIndex.mk (replaced.offset + old_slot_count * slotSize)).id - 1)
        old_slot_count }

/-- A sequence of `Allocate` calls; returns the final buffer and the
issued identifiers in call order. -/
def allocSeq : OperationBuffer → List Nat → OperationBuffer × List OpIndex
  | b, [] => (b, [])
  | b, n :: ns =>
      let r := b.Allocate n
      let rest := allocSeq r.1 ns
      (rest.1, r.2 :: rest.2)

/-- Basic well-formedness of a buffer state: the cursor lies within
capacity and the size table covers the whole capacity.  It holds for
`mkBuffer` and is preserved by every operation. -/
def WF (b : OperationBuffer) : Prop :=
  b.endPos ≤ b.capacity ∧ b.capacity ≤ b.sizes.length

instance (b : OperationBuffer) : Decidable b.WF :=
  inferInstanceAs (Decidable (_ ∧ _))

end OperationBuffer

/-- `Block::Kind`. -/
inductive BlockKind : Type
  | kMerge
  | kLoopHeader
  | kBranchTarget
deriving DecidableEq, Repr

/-- A basic block.  `Block*` pointers (`last_predecessor_`,
`neighboring_predecessor_`, and the pool entries themselves) are modelled
as indices into the graph's `all_blocks_` list; null pointers and the
invalid `OpIndex` / `BlockIndex` sentinels become `none`. -/
structure Block where
  kind : BlockKind
  deferred : Bool
  begin_ : Option OpIndex
  end_ : Option OpIndex
  index_ : Option Nat
  last_predecessor : Option Nat
  neighboring_predecessor : Option Nat
deriving DecidableEq, Repr

namespace Block

/-- The `Block(Kind)` constructor: every field but the kind at its
default. -/
def init (kind : BlockKind) : Block :=
  { kind := kind
    deferred := false
    begin_ := none
    end_ := none
    index_ := none
    last_predecessor := none
    neighboring_predecessor := none }

/-- Placeholder record standing for uninitialized pool storage and for
out-of-range reads. -/
def dummy : Block := init .kMerge

instance : Inhabited Block := ⟨dummy⟩

/-- `IsBound()`: the block has been given a `BlockIndex`. -/
def IsBound (b : Block) : Prop := b.index_ ≠ none

instance (b : Block) : Decidable b.IsBound := inferInstanceAs (Decidable (_ ≠ _))

/-- `HasPredecessors()`. -/
def HasPredecessors (b : Block) : Prop := b.last_predecessor ≠ none

instance (b : Block) : Decidable b.HasPredecessors :=
  inferInstanceAs (Decidable (_ ≠ _))

/-- `Contains(op_idx)`: `begin_ <= op_idx && op_idx < end_` (on unset
bounds the C++ would compare against the invalid sentinel; reading them is
a checked error, so the model requires both to be set). -/
def Contains (b : Block) (op_idx : OpIndex) : Prop :=
  ∃ lo hi, b.begin_ = some lo ∧ b.end_ = some hi ∧
    lo.offset ≤ op_idx.offset ∧ op_idx.offset < hi.offset

end Block

/-- Walk the intrusive predecessor chain from a head pointer, following
`neighboring_predecessor_` links, newest first.  The C++ loop carries no
fuel; the `fuel` argument (always instantiated with the pool size, enough
for any acyclic chain — and chains are acyclic under the `AddPredecessor`
debug checks) only serves Lean's termination. -/
def chainFrom (blocks : List Block) : Option Nat → Nat → List Nat
  | none, _ => []
  | some _, 0 => []
  | some p, fuel + 1 =>
      p :: chainFrom blocks (blocks.getD p Block.dummy).neighboring_predecessor fuel

/-- `Block::Predecessors()`: collect the chain, then `std::reverse` so the
result lists predecessors oldest first. -/
def predecessorsOf (blocks : List Block) (b : Nat) : List Nat :=
  (chainFrom blocks (blocks.getD b Block.dummy).last_predecessor blocks.length).reverse

/-- `Block::AddPredecessor(predecessor)`: prepend — the new predecessor's
`neighboring_predecessor_` becomes the old chain head, and it becomes the
new `last_predecessor_`. -/
def addPredecessor (blocks : List Block) (b p : Nat) : List Block :=
  let blocks1 := blocks.set p
    { blocks.getD p Block.dummy with
        neighboring_predecessor := (blocks.getD b Block.dummy).last_predecessor }
  blocks1.set b
    { blocks1.getD b Block.dummy with last_predecessor := some p }

/-- A sequence of `AddPredecessor` calls on block `b`, oldest call
first. -/
def addPredList (blocks : List Block) (b : Nat) : List Nat → List Block
  | [] => blocks
  | p :: ps => addPredList (addPredecessor blocks b p) b ps

/-- The deferred-flag loop of `Graph::Add(Block*)`: start from `true`,
walk the predecessor chain, drop to `false` at the first non-deferred
predecessor. -/
def computeDeferred (blocks : List Block) : Option Nat → Nat → Bool
  | none, _ => true
  | some _, 0 => true
  | some p, fuel + 1 =>
      if (blocks.getD p Block.dummy).deferred then
        computeDeferred blocks (blocks.getD p Block.dummy).neighboring_predecessor fuel
      else false

/-- The swappable data members of a `Graph`: the arena, the bound-block
list (block-pool indices in binding order), the block pool, and the pool
cursor.  (`graph_zone_` is allocator identity and has no observable
content; it is not modelled.) -/
structure GraphData where
  operations : OperationBuffer
  bound_blocks : List Nat
  all_blocks : List Block
  next_block : Nat
deriving DecidableEq, Repr

/-- A fresh `Graph(zone, initial_capacity)` worth of data. -/
def mkGraphData (initial_capacity : Nat) : GraphData :=
  { operations := OperationBuffer.mkBuffer initial_capacity
    bound_blocks := []
    all_blocks := []
    next_block := 0 }

/-- `Graph`: its data members plus the lazily created companion
(`std::unique_ptr<Graph>`; the companion's own companion is never
materialized, so one level suffices). -/
structure Graph extends GraphData where
  companion : Option GraphData
deriving DecidableEq, Repr

namespace Graph

/-- The `Graph(zone, initial_capacity)` constructor. -/
def mkGraph (initial_capacity : Nat) : Graph :=
  { toGraphData := mkGraphData initial_capacity, companion := none }

/-- `Reset()`: rewind the arena, clear the bound-block list, rewind the
pool cursor; the pool itself and the companion are kept. -/
def Reset (g : Graph) : Graph :=
  { g with
      operations := g.operations.Reset
      bound_blocks := []
      next_block := 0 }

/-- `Get(BlockIndex)`: the bound block at that index (as a pool index). -/
def GetBlock (g : Graph) (i : Nat) : Nat := g.bound_blocks.getD i 0

/-- `next_operation_index()`. -/
def next_operation_index (g : Graph) : OpIndex := g.operations.EndIndex

/-- `NewBlock(kind)`: grow the pool by a batch of 64 blocks when
exhausted, issue the block at the cursor, and re-initialize it by
assigning `Block(kind)` over it.  Returns the graph and the pool index of
the issued block. -/
def NewBlock (g : Graph) (kind : BlockKind) : Graph × Nat :=
  let g :=
    if g.next_block = g.all_blocks.length then
      { g with all_blocks := g.all_blocks ++ List.replicate 64 Block.dummy }
    else g
  ({ g with
       all_blocks := g.all_blocks.set g.next_block (Block.init kind)
       next_block := g.next_block + 1 },
   g.next_block)

/-- `Add(Block*)`: refuse to bind a block that is not the first bound
block and has no predecessors; otherwise compute the deferred flag from
the predecessor chain, set `begin_` to the current arena cursor, assign
the next dense `BlockIndex`, and append the block to the bound list.
Returns the updated graph and the C++ `bool` result. -/
def AddBlock (g : Graph) (b : Nat) : Graph × Bool :=
  if ¬g.bound_blocks.isEmpty ∧
      (g.all_blocks.getD b Block.dummy).last_predecessor = none then
    (g, false)
  else
    let blk := g.all_blocks.getD b Block.dummy
    let blk :=
      { blk with
          deferred := computeDeferred g.all_blocks blk.last_predecessor g.all_blocks.length
          begin_ := some g.next_operation_index
          index_ := some g.bound_blocks.length }
    ({ g with
         all_blocks := g.all_blocks.set b blk
         bound_blocks := g.bound_blocks ++ [b] },
     true)

/-- `Finalize(block)`: set `end_` to the current arena cursor. -/
def Finalize (g : Graph) (b : Nat) : Graph :=
  { g with
      all_blocks := g.all_blocks.set b
        { g.all_blocks.getD b Block.dummy with end_ := some g.next_operation_index } }

/-- `Graph::Replace<Op>(replaced, ...)`. -/
def Replace (g : Graph) (replaced : OpIndex) (new_slot_count : Nat)
    (content : List OperationStorageSlot) : Graph :=
  { g with operations := g.operations.Replace replaced new_slot_count content }

/-- `GetOrCreateCompanion()`: lazily allocate the companion, sized to the
current arena occupancy. -/
def GetOrCreateCompanion (g : Graph) : Graph :=
  match g.companion with
  | some _ => g
  | none => { g with companion := some (mkGraphData g.operations.size) }

/-- `SwapWithCompanion()`: `std::swap` each data member with the
companion's. -/
def SwapWithCompanion (g : Graph) : Graph :=
  let g := g.GetOrCreateCompanion
  match g.companion with
  | some d => { toGraphData := d, companion := some g.toGraphData }
  | none => g

end Graph

/-- One public mutation of a `Graph`. -/
inductive GEvent : Type
  | newBlock (kind : BlockKind)
  | addPred (b p : Nat)
  | bind (b : Nat)
  | finalize (b : Nat)
  | allocateOp (slot_count : Nat) (content : List OperationStorageSlot)
  | removeLast
  | reset
  | swap
deriving Repr

/-- Debug-checked small-step semantics: a `DCHECK` failure aborts the
program, modelled as `none`.  Pointer arguments are valid when they name a
block already issued by `NewBlock` (that is what `DCHECK_EQ(block->graph_,
this)` checks), hence the `< next_block` guards. -/
def step (g : Graph) : GEvent → Option Graph
  | .newBlock kind => some (g.NewBlock kind).1
  | .addPred b p =>
      if b < g.next_block ∧ p < g.next_block ∧
          (¬(g.all_blocks.getD b Block.dummy).IsBound ∨
            ((predecessorsOf g.all_blocks b).length = 1 ∧
              (g.all_blocks.getD b Block.dummy).kind = .kLoopHeader)) ∧
          (g.all_blocks.getD p Block.dummy).neighboring_predecessor = none then
        some { g with all_blocks := addPredecessor g.all_blocks b p }
      else none
  | .bind b =>
      if b < g.next_block then
        if ¬g.bound_blocks.isEmpty ∧
            (g.all_blocks.getD b Block.dummy).last_predecessor = none then
          some g
        else if (g.all_blocks.getD b Block.dummy).index_ = none ∧
            (g.all_blocks.getD b Block.dummy).begin_ = none then
          some (g.AddBlock b).1
        else none
      else none
  | .finalize b =>
      if b < g.next_block ∧ (g.all_blocks.getD b Block.dummy).end_ = none then
        some (g.Finalize b)
      else none
  | .allocateOp n content =>
      some { g with operations := (g.operations.AllocateOp n content).1 }
  | .removeLast => some { g with operations := g.operations.RemoveLast }
  | .reset => some g.Reset
  | .swap => some g.SwapWithCompanion

/-- Run a list of events from a state; `none` as soon as a debug check
fails. -/
def runTrace (g : Graph) : List GEvent → Option Graph
  | [] => some g
  | e :: es =>
      match step g e with
      | none => none
      | some g1 => runTrace g1 es

/-! ### Invariants used by the theorems -/

/-- The bound-block invariant of a graph's data: the pool cursor is inside
the pool, and the block stored at position `j` of the bound list carries
`BlockIndex` `j`. -/
def DataInv (d : GraphData) : Prop :=
  d.next_block ≤ d.all_blocks.length ∧
  ∀ j, j < d.bound_blocks.length →
    d.bound_blocks.getD j 0 < d.next_block ∧
    (d.all_blocks.getD (d.bound_blocks.getD j 0) Block.dummy).index_ = some j

/-- `DataInv` for the graph and for its companion, when present. -/
def GraphInv (g : Graph) : Prop :=
  DataInv g.toGraphData ∧ ∀ d, g.companion = some d → DataInv d

/-! ### Concrete states exercised by the closed corollaries below -/

/-- A small arena holding two two-slot runs. -/
def twoRunBuffer : OperationBuffer := (OperationBuffer.allocSeq (OperationBuffer.mkBuffer 4) [2, 2]).1

/-- A small full arena holding one two-slot record with contents `[5, 6]`. -/
def fullBuffer : OperationBuffer := ((OperationBuffer.mkBuffer 2).AllocateOp 2 [5, 6]).1

/-- A fresh graph with one issued (unbound) pool block. -/
def oneBlockGraph : Graph := ((Graph.mkGraph 2).NewBlock .kMerge).1

/-- A fresh graph after one swap: its companion exists. -/
def swappedGraph : Graph := (Graph.mkGraph 2).SwapWithCompanion

/-- The data the first swap pushes into the companion. -/
def swappedGraphCompanion : GraphData := (Graph.mkGraph 2).toGraphData

/-- A small event trace binding two blocks. -/
def twoBlockTrace : List GEvent :=
  [.newBlock .kMerge, .bind 0, .newBlock .kBranchTarget, .addPred 1 0, .bind 1]

/-- The graph the trace `twoBlockTrace` reaches. -/
def twoBlockGraph : Graph := (runTrace (Graph.mkGraph 2) twoBlockTrace).getD (Graph.mkGraph 2)

/-!
## Theorems

The development below settles the spec's claims.  Helper lemmas come
first; each claim's theorem is marked with its claim id.
-/

open OperationBuffer

theorem listGetD_set_self {l : List α} {i : Nat} {v d : α} (h : i < l.length) :
    (l.set i v).getD i d = v := by
  simp [List.getD_eq_getElem?_getD, List.getElem?_set_self h]

theorem listGetD_set_ne {l : List α} {i j : Nat} {v d : α} (h : i ≠ j) :
    (l.set i v).getD j d = l.getD j d := by
  simp [List.getD_eq_getElem?_getD, List.getElem?_set_ne h]

theorem listGetD_append_left {l l' : List α} {i : Nat} {d : α} (h : i < l.length) :
    (l ++ l').getD i d = l.getD i d := by
  simp [List.getD_eq_getElem?_getD, List.getElem?_append_left h]

theorem listGetD_take {l : List α} {n i : Nat} {d : α} (h : i < n) :
    (l.take n).getD i d = l.getD i d := by
  simp [List.getD_eq_getElem?_getD, List.getElem?_take_of_lt h]

theorem listGetD_append_length {l : List α} {x d : α} :
    (l ++ [x]).getD l.length d = x := by
  induction l with
  | nil => rfl
  | cons a l ih => simp [ih]

theorem growCapacity_le (c m : Nat) : m ≤ growCapacity c m ∧ c ≤ growCapacity c m := by
  generalize hk : m - c = k
  induction k using Nat.strong_induction_on generalizing c with
  | _ k ih =>
    rw [growCapacity]
    split
    · split
      · omega
      · have hrec := ih (m - 2 * c) (by omega) (2 * c) rfl
        omega
    · omega

theorem OpIndex_id_mul (s : Nat) : (OpIndex.mk (s * slotSize)).id = s := by
  simp [OpIndex.id, slotSize, kSlotsPerId]

theorem OpIndex_id_addmul (s n : Nat) :
    (OpIndex.mk (s * slotSize + n * slotSize)).id = s + n := by
  have h : s * slotSize + n * slotSize = (s + n) * slotSize := by ring
  rw [h, OpIndex_id_mul]

theorem Grow_endPos (b : OperationBuffer) (m : Nat) : (b.Grow m).endPos = b.endPos := rfl

theorem Grow_capacity (b : OperationBuffer) (m : Nat) (hwf : b.WF) :
    (b.Grow m).capacity = growCapacity (2 * b.capacity) m := by
  obtain ⟨h1, h2⟩ := hwf
  have hg := growCapacity_le (2 * b.capacity) m
  simp only [Grow, capacity, List.length_append, List.length_take, List.length_replicate]
  simp only [capacity] at h1 h2 hg
  omega

theorem Grow_WF (b : OperationBuffer) (m : Nat) (hwf : b.WF) : (b.Grow m).WF := by
  obtain ⟨h1, h2⟩ := hwf
  have hg := growCapacity_le (2 * b.capacity) m
  constructor
  · rw [Grow_capacity b m ⟨h1, h2⟩]
    simp only [Grow, capacity] at hg ⊢
    simp only [capacity] at h1 h2
    omega
  · rw [Grow_capacity b m ⟨h1, h2⟩]
    simp only [Grow, kSlotsPerId, Nat.div_one, List.length_append, List.length_take,
      List.length_replicate]
    simp only [capacity] at h1 h2 hg ⊢
    omega

theorem Grow_buf_stable (b : OperationBuffer) (m : Nat) (hwf : b.WF) (p : Nat)
    (hp : p < b.endPos) : (b.Grow m).buf.getD p 0 = b.buf.getD p 0 := by
  obtain ⟨h1, h2⟩ := hwf
  simp only [Grow]
  rw [listGetD_append_left, listGetD_take hp]
  simp only [List.length_take, capacity] at h1 ⊢
  omega

theorem Grow_sizes_stable (b : OperationBuffer) (m : Nat) (hwf : b.WF) (i : Nat)
    (hi : i < b.endPos) : (b.Grow m).sizes.getD i 0 = b.sizes.getD i 0 := by
  obtain ⟨h1, h2⟩ := hwf
  simp only [Grow, kSlotsPerId, Nat.div_one]
  rw [listGetD_append_left, listGetD_take hi]
  simp only [List.length_take, capacity] at h1 h2 ⊢
  omega

theorem ensureSpace_endPos (b : OperationBuffer) (n : Nat) :
    (b.ensureSpace n).endPos = b.endPos := by
  unfold ensureSpace
  split
  · exact Grow_endPos b _
  · rfl

theorem ensureSpace_WF (b : OperationBuffer) (n : Nat) (hwf : b.WF) :
    (b.ensureSpace n).WF := by
  unfold ensureSpace
  split
  · exact Grow_WF b _ hwf
  · exact hwf

theorem ensureSpace_room (b : OperationBuffer) (n : Nat) (hwf : b.WF) :
    b.endPos + n ≤ (b.ensureSpace n).capacity := by
  obtain ⟨h1, h2⟩ := hwf
  unfold ensureSpace
  split
  · rw [Grow_capacity b _ ⟨h1, h2⟩]
    have hle := growCapacity_le (2 * b.capacity) (b.capacity + n)
    omega
  · omega

theorem ensureSpace_buf_stable (b : OperationBuffer) (n : Nat) (hwf : b.WF) (p : Nat)
    (hp : p < b.endPos) : (b.ensureSpace n).buf.getD p 0 = b.buf.getD p 0 := by
  unfold ensureSpace
  split
  · exact Grow_buf_stable b _ hwf p hp
  · rfl

theorem ensureSpace_sizes_stable (b : OperationBuffer) (n : Nat) (hwf : b.WF) (i : Nat)
    (hi : i < b.endPos) : (b.ensureSpace n).sizes.getD i 0 = b.sizes.getD i 0 := by
  unfold ensureSpace
  split
  · exact Grow_sizes_stable b _ hwf i hi
  · rfl

theorem Allocate_basic (b : OperationBuffer) (n : Nat) (hwf : b.WF) :
    (b.Allocate n).2 = ⟨b.endPos * slotSize⟩ ∧
    (b.Allocate n).1.endPos = b.endPos + n ∧
    b.endPos + n ≤ (b.Allocate n).1.capacity ∧
    (b.Allocate n).1.WF := by
  have he := ensureSpace_endPos b n
  have hr := ensureSpace_room b n hwf
  obtain ⟨hw1, hw2⟩ := ensureSpace_WF b n hwf
  simp only [Allocate, WF, capacity, List.length_set]
  simp only [capacity] at hr hw1 hw2
  exact ⟨by rw [he], by rw [he], by omega, by omega, by omega⟩

theorem Allocate_fresh_table (b : OperationBuffer) (n : Nat) (hwf : b.WF)
    (h1 : 1 ≤ n) (h2 : n ≤ 65535) :
    (b.Allocate n).1.sizes.getD b.endPos 0 = n ∧
    (b.Allocate n).1.sizes.getD (b.endPos + n - 1) 0 = n := by
  have he := ensureSpace_endPos b n
  have hr := ensureSpace_room b n hwf
  obtain ⟨hw1, hw2⟩ := ensureSpace_WF b n hwf
  have hmod : n % 65536 = n := Nat.mod_eq_of_lt (by omega)
  simp only [Allocate, capacity] at hr hw1 hw2 ⊢
  rw [he, OpIndex_id_mul, OpIndex_id_addmul]
  have hlen : b.endPos + n - 1 < ((b.ensureSpace n).sizes.set b.endPos (n % 65536)).length := by
    simp only [List.length_set]
    omega
  constructor
  · by_cases hn : n = 1
    · subst hn
      have hix : b.endPos + 1 - 1 = b.endPos := by omega
      rw [hix, listGetD_set_self (by simp only [List.length_set]; omega)]
    · rw [listGetD_set_ne (by omega), listGetD_set_self (by omega)]
      omega
  · rw [listGetD_set_self hlen]
    omega

theorem Allocate_sizes_stable (b : OperationBuffer) (n : Nat) (hwf : b.WF)
    (hn : 1 ≤ n) (i : Nat) (hi : i < b.endPos) :
    (b.Allocate n).1.sizes.getD i 0 = b.sizes.getD i 0 := by
  have he := ensureSpace_endPos b n
  have hs := ensureSpace_sizes_stable b n hwf i hi
  simp only [Allocate]
  rw [he, OpIndex_id_mul, OpIndex_id_addmul]
  rw [listGetD_set_ne (by omega), listGetD_set_ne (by omega)]
  exact hs

theorem Allocate_buf_stable (b : OperationBuffer) (n : Nat) (hwf : b.WF)
    (p : Nat) (hp : p < b.endPos) :
    (b.Allocate n).1.buf.getD p 0 = b.buf.getD p 0 := by
  simp only [Allocate]
  exact ensureSpace_buf_stable b n hwf p hp

theorem writeList_stable (c : List OperationStorageSlot) :
    ∀ (l : List OperationStorageSlot) (start q : Nat), q < start →
      (writeList l start c).getD q 0 = l.getD q 0 := by
  induction c with
  | nil => intro l start q _; rfl
  | cons x c ih =>
      intro l start q hq
      simp only [writeList]
      rw [ih (l.set start x) (start + 1) q (by omega), listGetD_set_ne (by omega)]

theorem AllocateOp_buf_stable (b : OperationBuffer) (n : Nat)
    (content : List OperationStorageSlot) (hwf : b.WF) (p : Nat) (hp : p < b.endPos) :
    (b.AllocateOp n content).1.buf.getD p 0 = b.buf.getD p 0 := by
  have he := ensureSpace_endPos b n
  have hab := Allocate_basic b n hwf
  simp only [AllocateOp, writeRun]
  rw [hab.1]
  have hdiv : (OpIndex.mk (b.endPos * slotSize)).offset / slotSize = b.endPos := by
    simpa [OpIndex.id, kSlotsPerId] using OpIndex_id_mul b.endPos
  rw [hdiv, writeList_stable content _ _ _ hp]
  exact Allocate_buf_stable b n hwf p hp

theorem AllocateOp_sizes_eq (b : OperationBuffer) (n : Nat)
    (content : List OperationStorageSlot) :
    (b.AllocateOp n content).1.sizes = (b.Allocate n).1.sizes := rfl

theorem AllocateOp_endPos_eq (b : OperationBuffer) (n : Nat)
    (content : List OperationStorageSlot) :
    (b.AllocateOp n content).1.endPos = (b.Allocate n).1.endPos := rfl

theorem allocSeq_cons (b : OperationBuffer) (n : Nat) (ns : List Nat) :
    allocSeq b (n :: ns) =
      ((allocSeq (b.Allocate n).1 ns).1, (b.Allocate n).2 :: (allocSeq (b.Allocate n).1 ns).2) :=
  rfl

/-- Master invariant of a run of `Allocate` calls: well-formedness, the
identifiers issued (each at the then-current cursor), the final cursor,
stability of table entries below the starting cursor, and the
dual-endpoint size-table records for every run of the sequence. -/
theorem allocSeq_master (ns : List Nat) : ∀ b : OperationBuffer, b.WF →
    (∀ n ∈ ns, 1 ≤ n ∧ n ≤ 65535) →
    (allocSeq b ns).1.WF ∧
    (allocSeq b ns).2.length = ns.length ∧
    (allocSeq b ns).1.endPos = b.endPos + ns.sum ∧
    (∀ i, i < b.endPos → (allocSeq b ns).1.sizes.getD i 0 = b.sizes.getD i 0) ∧
    (∀ k, k < ns.length →
      ((allocSeq b ns).2.getD k ⟨0⟩).offset = (b.endPos + (ns.take k).sum) * slotSize ∧
      (allocSeq b ns).1.sizes.getD (b.endPos + (ns.take k).sum) 0 = ns.getD k 0 ∧
      (allocSeq b ns).1.sizes.getD (b.endPos + (ns.take k).sum + ns.getD k 0 - 1) 0 =
        ns.getD k 0) := by
  induction ns with
  | nil =>
      intro b hwf _
      exact ⟨hwf, rfl, by simp [allocSeq], fun i _ => rfl, fun k hk => absurd hk (by simp)⟩
  | cons n ns ih =>
      intro b hwf hval
      have hn := hval n (by simp)
      have hab := Allocate_basic b n hwf
      have hfresh := Allocate_fresh_table b n hwf hn.1 hn.2
      have hwf1 : (b.Allocate n).1.WF := hab.2.2.2
      obtain ⟨iwf, ilen, iend, istab, iruns⟩ :=
        ih (b.Allocate n).1 hwf1 (fun m hm => hval m (by simp [hm]))
      rw [allocSeq_cons]
      have hend1 : (b.Allocate n).1.endPos = b.endPos + n := hab.2.1
      refine ⟨iwf, by simp [ilen], by rw [iend, hend1, List.sum_cons]; omega, ?_, ?_⟩
      · intro i hi
        rw [istab i (by omega), Allocate_sizes_stable b n hwf hn.1 i hi]
      · intro k hk
        match k with
        | 0 =>
            have h0 : (b.Allocate n).2 = ⟨b.endPos * slotSize⟩ := hab.1
            refine ⟨by simp [h0], ?_, ?_⟩
            · rw [show b.endPos + (List.take 0 (n :: ns)).sum = b.endPos by simp]
              rw [istab b.endPos (by omega)]
              simpa using hfresh.1
            · rw [show b.endPos + (List.take 0 (n :: ns)).sum +
                    (n :: ns).getD 0 0 - 1 = b.endPos + n - 1 by simp]
              rw [istab (b.endPos + n - 1) (by omega)]
              simpa using hfresh.2
        | k + 1 =>
            have hk' : k < ns.length := by simpa using hk
            obtain ⟨io, is1, is2⟩ := iruns k hk'
            have htake : ((n :: ns).take (k + 1)).sum = n + (ns.take k).sum := by
              simp [List.take_succ_cons]
            have hidx : (b.Allocate n).1.endPos + (ns.take k).sum =
                b.endPos + ((n :: ns).take (k + 1)).sum := by
              rw [htake, hend1]; omega
            refine ⟨?_, ?_, ?_⟩
            · simpa [hidx] using io
            · simpa [hidx] using is1
            · simpa [hidx] using is2

theorem listGetD_mem {α : Type} {l : List α} {k : Nat} {d : α} (hk : k < l.length) :
    l.getD k d ∈ l := by
  rw [List.getD_eq_getElem?_getD, List.getElem?_eq_getElem hk]
  exact List.getElem_mem hk

theorem OpIndex_offset_div (s : Nat) : (OpIndex.mk (s * slotSize)).offset / slotSize = s := by
  simp [slotSize]

theorem OpIndex_ext {i j : OpIndex} (h : i.offset = j.offset) : i = j := by
  cases i
  cases j
  simpa using h

theorem sum_take_succ_getD (ns : List Nat) : ∀ k, k < ns.length →
    (ns.take (k + 1)).sum = (ns.take k).sum + ns.getD k 0 := by
  induction ns with
  | nil => intro k hk; simp at hk
  | cons n ns ih =>
      intro k hk
      match k with
      | 0 => simp
      | k + 1 =>
          have := ih k (by simpa using hk)
          simp only [List.take_succ_cons, List.sum_cons, List.getD_cons_succ]
          omega

/-- **C4** (functional form): after any sequence of `Allocate` calls with
slot counts in `1..65535` on a well-formed buffer, `Next` of the `k`-th
issued identifier is the `(k+1)`-st, and `Previous` of the `(k+1)`-st is
the `k`-th: `Next` and `Previous` step between consecutive identifiers in
both directions. -/
theorem allocSeq_next_previous (b : OperationBuffer) (hwf : b.WF) (ns : List Nat)
    (hval : ∀ n ∈ ns, 1 ≤ n ∧ n ≤ 65535) (k : Nat) (hk : k + 1 < ns.length) :
    (allocSeq b ns).1.Next ((allocSeq b ns).2.getD k ⟨0⟩) =
      (allocSeq b ns).2.getD (k + 1) ⟨0⟩ ∧
    (allocSeq b ns).1.Previous ((allocSeq b ns).2.getD (k + 1) ⟨0⟩) =
      (allocSeq b ns).2.getD k ⟨0⟩ := by
  obtain ⟨-, -, -, -, iruns⟩ := allocSeq_master ns b hwf hval
  obtain ⟨io, is1, is2⟩ := iruns k (by omega)
  obtain ⟨io', -, -⟩ := iruns (k + 1) hk
  have hnk := hval (ns.getD k 0) (listGetD_mem (l := ns) (d := 0) (by omega))
  have hsum : ((ns.take (k + 1)).sum : Nat) = (ns.take k).sum + ns.getD k 0 :=
    sum_take_succ_getD ns k (by omega)
  have hik : (allocSeq b ns).2.getD k ⟨0⟩ =
      ⟨(b.endPos + (ns.take k).sum) * slotSize⟩ := OpIndex_ext io
  have hik' : (allocSeq b ns).2.getD (k + 1) ⟨0⟩ =
      ⟨(b.endPos + (ns.take (k + 1)).sum) * slotSize⟩ := OpIndex_ext io'
  constructor
  · rw [hik, hik', Next, OpIndex_id_mul, is1]
    apply OpIndex_ext
    simp only [slotSize]
    rw [hsum]
    ring
  · rw [hik, hik', Previous, OpIndex_id_mul]
    have hix : b.endPos + (ns.take (k + 1)).sum - 1 =
        b.endPos + (ns.take k).sum + ns.getD k 0 - 1 := by omega
    rw [hix, is2]
    apply OpIndex_ext
    simp only [slotSize]
    rw [hsum]
    have h1 : 1 ≤ ns.getD k 0 := hnk.1
    cases Nat.exists_eq_add_of_le h1 with
    | intro m hm =>
        rw [hm]
        ring_nf
        omega

/-- **C7**: after any sequence of `Allocate` calls with slot counts in
`1..65535` on a well-formed buffer, every issued run of length `n`
starting at identifier `i` has `n` recorded in the size table both at
`id(i)` and at the id of the run's last unit, `id(i + (n-1)·slotSize)`. -/
theorem allocSeq_size_table_endpoints (b : OperationBuffer) (hwf : b.WF) (ns : List Nat)
    (hval : ∀ n ∈ ns, 1 ≤ n ∧ n ≤ 65535) (k : Nat) (hk : k < ns.length) :
    (allocSeq b ns).1.SlotCount ((allocSeq b ns).2.getD k ⟨0⟩) = ns.getD k 0 ∧
    (allocSeq b ns).1.sizes.getD
      (OpIndex.id ⟨((allocSeq b ns).2.getD k ⟨0⟩).offset + (ns.getD k 0 - 1) * slotSize⟩) 0 =
      ns.getD k 0 := by
  obtain ⟨-, -, -, -, iruns⟩ := allocSeq_master ns b hwf hval
  obtain ⟨io, is1, is2⟩ := iruns k hk
  have hik : (allocSeq b ns).2.getD k ⟨0⟩ =
      ⟨(b.endPos + (ns.take k).sum) * slotSize⟩ := OpIndex_ext io
  constructor
  · rw [hik, SlotCount, OpIndex_id_mul]
    exact is1
  · rw [hik]
    simp only [OpIndex_id_addmul]
    have hnk := hval (ns.getD k 0) (listGetD_mem (l := ns) (d := 0) hk)
    have hix : b.endPos + (ns.take k).sum + (ns.getD k 0 - 1) =
        b.endPos + (ns.take k).sum + ns.getD k 0 - 1 := by omega
    rw [hix]
    exact is2

/-- **C3**: for a well-formed buffer and an already-allocated run (it lies
inside the used region and the size table reports at least one slot for
it), an `Allocate`-with-construction call that triggers arena growth
(fewer free slots remain than requested) leaves the record denoted by the
old identifier byte-equal to what it was before the growth. -/
theorem grow_preserves_records (b : OperationBuffer) (hwf : b.WF) (idx : OpIndex)
    (n : Nat) (content : List OperationStorageSlot)
    (hcount : 1 ≤ b.SlotCount idx)
    (hrun : idx.offset / slotSize + b.SlotCount idx ≤ b.endPos)
    (htrigger : b.capacity - b.endPos < n) :
    (b.AllocateOp n content).1.getRecord idx = b.getRecord idx := by
  have hn : 1 ≤ n := by omega
  have hid : idx.id < b.endPos := by
    have : idx.id = idx.offset / slotSize := by
      simp [OpIndex.id, kSlotsPerId]
    omega
  have hsc : (b.AllocateOp n content).1.SlotCount idx = b.SlotCount idx := by
    rw [SlotCount, SlotCount, AllocateOp_sizes_eq]
    exact Allocate_sizes_stable b n hwf hn idx.id hid
  rw [getRecord, getRecord, hsc, readRun, readRun]
  apply List.map_congr_left
  intro j hj
  have hjlt : j < b.SlotCount idx := List.mem_range.mp hj
  exact AllocateOp_buf_stable b n content hwf _ (by omega)

theorem mul_div_slotSize (s : Nat) : s * slotSize / slotSize = s := by
  simp [slotSize]

theorem double_set_getD (L : List Nat) (s old : Nat) (h1 : 1 ≤ old)
    (hs : s + old - 1 < L.length) :
    ((L.set s old).set (s + old - 1) old).getD s 0 = old ∧
    ((L.set s old).set (s + old - 1) old).getD (s + old - 1) 0 = old := by
  constructor
  · by_cases hone : s + old - 1 = s
    · rw [hone, listGetD_set_self (by simp only [List.length_set]; omega)]
    · rw [listGetD_set_ne hone, listGetD_set_self (by omega)]
  · rw [listGetD_set_self (by simp only [List.length_set]; omega)]

/-- **C1**: replacing a recorded run of original length `old` (both
endpoint entries present, run inside the used region) by a new run of no
more slots restores, once the replacement completes, the ORIGINAL slot
count at both endpoint ids of the replaced run and the pre-replacement
write cursor; consequently `Next` across the run and `Previous` from the
far side return the same identifiers as before the replacement. -/
theorem replace_preserves_size_table_and_stepping (b : OperationBuffer)
    (s old new_slot_count : Nat) (content : List OperationStorageSlot) (hwf : b.WF)
    (holddef : b.SlotCount ⟨s * slotSize⟩ = old)
    (hold1 : 1 ≤ old) (hold2 : old ≤ 65535)
    (hrun : s + old ≤ b.endPos)
    (hnew1 : 1 ≤ new_slot_count) (hnew2 : new_slot_count ≤ old)
    (hdual : b.sizes.getD (s + old - 1) 0 = old) :
    (b.Replace ⟨s * slotSize⟩ new_slot_count content).endPos = b.endPos ∧
    (b.Replace ⟨s * slotSize⟩ new_slot_count content).SlotCount ⟨s * slotSize⟩ = old ∧
    (b.Replace ⟨s * slotSize⟩ new_slot_count content).sizes.getD (s + old - 1) 0 = old ∧
    (b.Replace ⟨s * slotSize⟩ new_slot_count content).Next ⟨s * slotSize⟩ =
      b.Next ⟨s * slotSize⟩ ∧
    (b.Replace ⟨s * slotSize⟩ new_slot_count content).Previous (b.Next ⟨s * slotSize⟩) =
      b.Previous (b.Next ⟨s * slotSize⟩) := by
  obtain ⟨hw1, hw2⟩ := hwf
  have hsdef : b.sizes.getD s 0 = old := by
    rw [← holddef, SlotCount, OpIndex_id_mul]
  have hmod : old % 65536 = old := Nat.mod_eq_of_lt (by omega)
  have hes : (OperationBuffer.mk b.buf s b.sizes).ensureSpace new_slot_count =
      OperationBuffer.mk b.buf s b.sizes := by
    unfold ensureSpace
    rw [if_neg]
    show ¬(b.buf.length - s < new_slot_count)
    simp only [capacity] at hw1
    omega
  have hlen : ((OperationBuffer.mk b.buf s b.sizes).AllocateOp new_slot_count
      content).1.sizes.length = b.sizes.length := by
    rw [AllocateOp_sizes_eq]
    simp only [Allocate, hes, List.length_set]
  have hkey := double_set_getD
    ((OperationBuffer.mk b.buf s b.sizes).AllocateOp new_slot_count content).1.sizes
    s old hold1 (by simp only [capacity] at hw1 hw2; omega)
  refine ⟨rfl, ?_, ?_, ?_, ?_⟩
  · simp only [Replace, SlotCount, holddef, hsdef, hmod, OpIndex_id_mul,
      OpIndex_id_addmul, mul_div_slotSize]
    exact hkey.1
  · simp only [Replace, SlotCount, holddef, hsdef, hmod, OpIndex_id_mul,
      OpIndex_id_addmul, mul_div_slotSize]
    exact hkey.2
  · simp only [Replace, Next, SlotCount, holddef, hsdef, hmod, OpIndex_id_mul,
      OpIndex_id_addmul, mul_div_slotSize]
    rw [hkey.1]
  · have hnexteq : b.Next ⟨s * slotSize⟩ = ⟨(s + old) * slotSize⟩ := by
      apply OpIndex_ext
      simp only [Next, OpIndex_id_mul, hsdef]
      ring
    rw [hnexteq]
    simp only [Replace, Previous, SlotCount, holddef, hsdef, hmod, OpIndex_id_mul,
      OpIndex_id_addmul, mul_div_slotSize]
    rw [show s + old - 1 = s + old - 1 from rfl, hkey.2, hdual]

theorem chainFrom_congr (fuel : Nat) : ∀ (h : Option Nat) (blocks blocks' : List Block),
    (∀ q ∈ chainFrom blocks h fuel,
      (blocks'.getD q Block.dummy).neighboring_predecessor =
        (blocks.getD q Block.dummy).neighboring_predecessor) →
    chainFrom blocks' h fuel = chainFrom blocks h fuel := by
  induction fuel with
  | zero => intro h blocks blocks' _; cases h <;> rfl
  | succ fuel ih =>
      intro h blocks blocks' hsame
      cases h with
      | none => rfl
      | some p =>
          simp only [chainFrom]
          have hp := hsame p (by simp [chainFrom])
          rw [hp]
          congr 1
          apply ih
          intro q hq
          exact hsame q (List.mem_cons_of_mem p hq)

theorem computeDeferred_eq_all (blocks : List Block) (fuel : Nat) : ∀ h : Option Nat,
    computeDeferred blocks h fuel =
      (chainFrom blocks h fuel).all (fun p => (blocks.getD p Block.dummy).deferred) := by
  induction fuel with
  | zero => intro h; cases h <;> rfl
  | succ fuel ih =>
      intro h
      cases h with
      | none => rfl
      | some p =>
          simp only [computeDeferred, chainFrom, List.all_cons, ih]
          by_cases hd : (blocks.getD p Block.dummy).deferred <;> simp [hd]

/-- One step of the chain-building invariant: adding a fresh predecessor
`p` (not on the current chain, with a null `neighboring_predecessor_`)
prepends `p` to the walked chain. -/
theorem addPredecessor_chain (blocks : List Block) (b p : Nat)
    (hb : b < blocks.length) (hp : p < blocks.length)
    (done : List Nat)
    (hchain : ∀ fuel, done.length ≤ fuel →
      chainFrom blocks (blocks.getD b Block.dummy).last_predecessor fuel = done.reverse)
    (hpdone : p ∉ done) :
    (addPredecessor blocks b p).length = blocks.length ∧
    (∀ fuel, done.length + 1 ≤ fuel →
      chainFrom (addPredecessor blocks b p)
        ((addPredecessor blocks b p).getD b Block.dummy).last_predecessor fuel =
        (done ++ [p]).reverse) ∧
    (∀ q, q ≠ p →
      (addPredecessor blocks b p |>.getD q Block.dummy).neighboring_predecessor =
        (blocks.getD q Block.dummy).neighboring_predecessor) ∧
    (∀ q, (addPredecessor blocks b p |>.getD q Block.dummy).index_ =
        (blocks.getD q Block.dummy).index_) := by
  have hlen1 : (addPredecessor blocks b p).length = blocks.length := by
    simp [addPredecessor]
  have hlast : ((addPredecessor blocks b p).getD b Block.dummy).last_predecessor = some p := by
    simp only [addPredecessor]
    rw [listGetD_set_self (by simpa using hb)]
  have hneigh_p : ((addPredecessor blocks b p).getD p Block.dummy).neighboring_predecessor =
      (blocks.getD b Block.dummy).last_predecessor := by
    simp only [addPredecessor]
    by_cases hpb : p = b
    · subst hpb
      rw [listGetD_set_self (by simpa using hb)]
      rw [listGetD_set_self hb]
    · rw [listGetD_set_ne (fun hh => hpb hh.symm)]
      rw [listGetD_set_self hp]
  have hneigh_other : ∀ q, q ≠ p →
      ((addPredecessor blocks b p).getD q Block.dummy).neighboring_predecessor =
        (blocks.getD q Block.dummy).neighboring_predecessor := by
    intro q hq
    simp only [addPredecessor]
    by_cases hqb : q = b
    · subst hqb
      rw [listGetD_set_self (by simpa using hb)]
      rw [listGetD_set_ne (fun hh => hq hh.symm)]
    · rw [listGetD_set_ne (fun hh => hqb hh.symm)]
      rw [listGetD_set_ne (fun hh => hq hh.symm)]
  refine ⟨hlen1, ?_, hneigh_other, ?_⟩
  · intro fuel hfuel
    match fuel, hfuel with
    | fuel + 1, hfuel =>
        rw [hlast]
        simp only [chainFrom]
        rw [hneigh_p]
        have hmem : ∀ q ∈ chainFrom blocks (blocks.getD b Block.dummy).last_predecessor fuel,
            ((addPredecessor blocks b p).getD q Block.dummy).neighboring_predecessor =
              (blocks.getD q Block.dummy).neighboring_predecessor := by
          intro q hq
          rw [hchain fuel (by omega)] at hq
          exact hneigh_other q
            (fun hqp => hpdone (by rw [← hqp]; exact List.mem_reverse.mp hq))
        rw [chainFrom_congr fuel _ blocks (addPredecessor blocks b p) hmem,
          hchain fuel (by omega)]
        simp
  · intro q
    simp only [addPredecessor]
    by_cases hqb : q = b
    · subst hqb
      rw [listGetD_set_self (by simpa using hb)]
      by_cases hpb : p = q
      · subst hpb
        rw [listGetD_set_self hb]
      · rw [listGetD_set_ne hpb]
    · rw [listGetD_set_ne (fun hh => hqb hh.symm)]
      by_cases hqp : q = p
      · subst hqp
        rw [listGetD_set_self hp]
      · rw [listGetD_set_ne (fun hh => hqp hh.symm)]

theorem nodup_bounded_length {ps : List Nat} {N : Nat} (hnodup : ps.Nodup)
    (hlt : ∀ p ∈ ps, p < N) : ps.length ≤ N := by
  have hsub : ps ⊆ List.range N := fun p hp => List.mem_range.mpr (hlt p hp)
  have hle := (hnodup.subperm hsub).length_le
  simpa using hle

theorem addPredList_chain (ps : List Nat) : ∀ (blocks : List Block) (b : Nat) (done : List Nat),
    b < blocks.length →
    (∀ fuel, done.length ≤ fuel →
      chainFrom blocks (blocks.getD b Block.dummy).last_predecessor fuel = done.reverse) →
    ps.Nodup →
    (∀ p ∈ ps, p < blocks.length ∧ p ∉ done ∧
      (blocks.getD p Block.dummy).neighboring_predecessor = none) →
    (addPredList blocks b ps).length = blocks.length ∧
    (∀ fuel, done.length + ps.length ≤ fuel →
      chainFrom (addPredList blocks b ps)
        ((addPredList blocks b ps).getD b Block.dummy).last_predecessor fuel =
        (done ++ ps).reverse) := by
  induction ps with
  | nil =>
      intro blocks b done _ hchain _ _
      exact ⟨rfl, by simpa using hchain⟩
  | cons p ps ih =>
      intro blocks b done hb hchain hnodup hps
      obtain ⟨hp, hpdone, _⟩ := hps p (by simp)
      obtain ⟨hlen1, hchain1, hneigh1, -⟩ :=
        addPredecessor_chain blocks b p hb hp done hchain hpdone
      have hnodup' := (List.nodup_cons.mp hnodup).2
      have hpnotin := (List.nodup_cons.mp hnodup).1
      have hps' : ∀ q ∈ ps, q < (addPredecessor blocks b p).length ∧ q ∉ done ++ [p] ∧
          ((addPredecessor blocks b p).getD q Block.dummy).neighboring_predecessor = none := by
        intro q hq
        obtain ⟨h1, h2, h3⟩ := hps q (by simp [hq])
        have hqp : q ≠ p := fun hqp => hpnotin (hqp ▸ hq)
        refine ⟨by omega, by simp [h2, hqp], by rw [hneigh1 q hqp]; exact h3⟩
      obtain ⟨hlen2, hchain2⟩ := ih (addPredecessor blocks b p) b (done ++ [p])
        (by omega)
        (fun fuel hf => hchain1 fuel (by simp at hf; omega))
        hnodup' hps'
      constructor
      · simp only [addPredList]
        omega
      · intro fuel hf
        have := hchain2 fuel (by simp; simp at hf; omega)
        simp only [addPredList]
        rw [this]
        simp

/-- **C6**: starting from a block with an empty predecessor chain, after
any sequence of `AddPredecessor` calls naming distinct, chain-free blocks,
`Predecessors()` returns exactly the predecessors in call order (oldest
first): the internally prepended chain is reversed on read. -/
theorem predecessors_in_call_order (blocks : List Block) (b : Nat) (ps : List Nat)
    (hb : b < blocks.length)
    (hstart : (blocks.getD b Block.dummy).last_predecessor = none)
    (hnodup : ps.Nodup)
    (hps : ∀ p ∈ ps, p < blocks.length ∧
      (blocks.getD p Block.dummy).neighboring_predecessor = none) :
    predecessorsOf (addPredList blocks b ps) b = ps := by
  obtain ⟨hlen, hchain⟩ := addPredList_chain ps blocks b [] hb
    (fun fuel _ => by rw [hstart]; cases fuel <;> rfl)
    hnodup (fun p hp => ⟨(hps p hp).1, by simp, (hps p hp).2⟩)
  have hlenps : ps.length ≤ blocks.length :=
    nodup_bounded_length hnodup (fun p hp => (hps p hp).1)
  rw [predecessorsOf, hlen, hchain blocks.length (by simpa using hlenps)]
  simp

/-- **C5**: `Add(Block*)` returns `false` exactly when some block is
already bound and the candidate has no predecessors; in that case the
graph — in particular the block — is completely unchanged.  Otherwise it
returns `true`, appends the block to the bound list, and assigns it the
dense next `BlockIndex`, namely the number of previously bound blocks. -/
theorem addBlock_spec (g : Graph) (b : Nat) (hb : b < g.all_blocks.length) :
    ((g.AddBlock b).2 = false ↔
      (g.bound_blocks ≠ [] ∧ ¬(g.all_blocks.getD b Block.dummy).HasPredecessors)) ∧
    ((g.AddBlock b).2 = false → (g.AddBlock b).1 = g) ∧
    ((g.AddBlock b).2 = true →
      ((g.AddBlock b).1.all_blocks.getD b Block.dummy).index_ =
        some g.bound_blocks.length ∧
      (g.AddBlock b).1.bound_blocks = g.bound_blocks ++ [b]) := by
  by_cases hcond : ¬g.bound_blocks.isEmpty ∧
      (g.all_blocks.getD b Block.dummy).last_predecessor = none
  · unfold Graph.AddBlock
    rw [if_pos hcond]
    refine ⟨?_, fun _ => rfl, fun h => by cases h⟩
    simp only [Block.HasPredecessors, ne_eq, not_not]
    constructor
    · intro _
      exact ⟨fun hnil => hcond.1 (by simp [hnil]), hcond.2⟩
    · intro _
      trivial
  · unfold Graph.AddBlock
    rw [if_neg hcond]
    dsimp only
    refine ⟨?_, fun h => Bool.noConfusion h, fun _ => ⟨?_, rfl⟩⟩
    · constructor
      · intro h
        exact Bool.noConfusion h
      · intro ⟨h1, h2⟩
        simp only [Block.HasPredecessors, ne_eq, not_not] at h2
        exact absurd ⟨fun he => h1 (List.isEmpty_iff.mp he), h2⟩ hcond
    · rw [listGetD_set_self hb]

/-- **C10**: `NewBlock(kind)` issues the block at the pool cursor and
fully re-initializes it, whether it is freshly allocated (pool growth) or
reused after a `Reset`: requested kind, deferred defaulting to false,
unset `begin_`/`end_`, no `BlockIndex` (unbound) and no predecessors. -/
theorem newBlock_fully_reinitialized (g : Graph) (kind : BlockKind)
    (hpool : g.next_block ≤ g.all_blocks.length) :
    (g.NewBlock kind).2 = g.next_block ∧
    ((g.NewBlock kind).1.all_blocks.getD (g.NewBlock kind).2 Block.dummy) =
      Block.init kind := by
  by_cases hgrow : g.next_block = g.all_blocks.length
  · simp only [Graph.NewBlock, hgrow, if_true]
    refine ⟨trivial, ?_⟩
    rw [listGetD_set_self]
    simp only [List.length_append, List.length_replicate]
    omega
  · simp only [Graph.NewBlock, hgrow, if_false]
    exact ⟨trivial, by rw [listGetD_set_self (by omega)]⟩

/-- **C2**, counterexample: binding the very first block — which has no
predecessors — succeeds and stores `deferred = true` (the loop's vacuous
initial value), while the claim demands that a block with no predecessors
is not deferred. -/
theorem entry_block_deferred_counterexample :
    (oneBlockGraph.AddBlock 0).2 = true ∧
    ((oneBlockGraph.AddBlock 0).1.all_blocks.getD 0 Block.dummy).deferred = true ∧
    predecessorsOf oneBlockGraph.all_blocks 0 = [] := by
  decide

/-- **C2**, amended: the deferred flag stored by a successful
`Add(Block*)` is true iff every predecessor is deferred — vacuously true
when there are none; in particular the first bound block, which may have
no predecessors, is stored as deferred, not as non-deferred. -/
theorem bind_deferred_iff_all_preds_deferred (g : Graph) (b : Nat)
    (hb : b < g.all_blocks.length) (htrue : (g.AddBlock b).2 = true) :
    ((g.AddBlock b).1.all_blocks.getD b Block.dummy).deferred =
      (predecessorsOf g.all_blocks b).all
        (fun p => (g.all_blocks.getD p Block.dummy).deferred) := by
  by_cases hcond : ¬g.bound_blocks.isEmpty ∧
      (g.all_blocks.getD b Block.dummy).last_predecessor = none
  · simp only [Graph.AddBlock, hcond, if_true] at htrue
    cases htrue
  · simp only [Graph.AddBlock, hcond, if_false]
    rw [listGetD_set_self hb]
    rw [computeDeferred_eq_all]
    simp [predecessorsOf, List.all_reverse]

/-- **C8**, counterexample: on a graph without a companion, the first
swap materializes the companion, so after two swaps the graph's internal
state differs from the original in its companion member — it is not
bit-identical. -/
theorem swap_twice_counterexample :
    ((Graph.mkGraph 2).SwapWithCompanion.SwapWithCompanion).companion ≠
      (Graph.mkGraph 2).companion := by
  decide

/-- **C8**, amended: two successive swaps with no intervening mutation
always restore all swapped data members (arena, bound-block list, block
pool, pool cursor); when the companion already existed before the first
swap the whole graph — companion included — is restored bit-identically.
(When it did not, the first swap creates it, so only the data members are
restored.) -/
theorem swap_twice_restores_data (g : Graph) :
    (g.SwapWithCompanion.SwapWithCompanion).toGraphData = g.toGraphData ∧
    (∀ d, g.companion = some d → g.SwapWithCompanion.SwapWithCompanion = g) := by
  cases g with
  | mk data comp =>
      cases comp with
      | some d =>
          constructor
          · simp [Graph.SwapWithCompanion, Graph.GetOrCreateCompanion]
          · intro d' hd'
            simp [Graph.SwapWithCompanion, Graph.GetOrCreateCompanion]
      | none =>
          constructor
          · simp [Graph.SwapWithCompanion, Graph.GetOrCreateCompanion]
          · intro d' hd'
            cases hd'

theorem addPredecessor_preserves_index (blocks : List Block) (b p : Nat)
    (hb : b < blocks.length) (hp : p < blocks.length) :
    (addPredecessor blocks b p).length = blocks.length ∧
    ∀ q, ((addPredecessor blocks b p).getD q Block.dummy).index_ =
      (blocks.getD q Block.dummy).index_ := by
  refine ⟨by simp [addPredecessor], ?_⟩
  intro q
  simp only [addPredecessor]
  by_cases hqb : q = b
  · subst hqb
    rw [listGetD_set_self (by simpa using hb)]
    by_cases hpb : p = q
    · subst hpb
      rw [listGetD_set_self hb]
    · rw [listGetD_set_ne hpb]
  · rw [listGetD_set_ne (fun hh => hqb hh.symm)]
    by_cases hqp : q = p
    · subst hqp
      rw [listGetD_set_self hp]
    · rw [listGetD_set_ne (fun hh => hqp hh.symm)]

theorem DataInv_mkGraphData (cap : Nat) : DataInv (mkGraphData cap) := by
  constructor
  · simp [mkGraphData]
  · intro j hj
    simp [mkGraphData] at hj

theorem GraphInv_mkGraph (cap : Nat) : GraphInv (Graph.mkGraph cap) :=
  ⟨DataInv_mkGraphData cap, fun _ hd => by cases hd⟩

theorem step_preserves_inv (g : Graph) (e : GEvent) (g' : Graph)
    (hg : GraphInv g) (hstep : step g e = some g') : GraphInv g' := by
  obtain ⟨⟨hpool, hbound⟩, hcomp⟩ := hg
  cases e with
  | newBlock kind =>
      simp only [step, Option.some.injEq] at hstep
      subst hstep
      by_cases hgrow : g.next_block = g.all_blocks.length
      · simp only [Graph.NewBlock, hgrow, if_true]
        refine ⟨⟨by dsimp only; simp only [List.length_set, List.length_append,
          List.length_replicate]; omega, ?_⟩, hcomp⟩
        intro j hj
        dsimp only at hj ⊢
        obtain ⟨hlt, hidx⟩ := hbound j hj
        refine ⟨by omega, ?_⟩
        rw [listGetD_set_ne (by omega), listGetD_append_left (by omega)]
        exact hidx
      · simp only [Graph.NewBlock, hgrow, if_false]
        refine ⟨⟨by dsimp only; simp only [List.length_set]; omega, ?_⟩, hcomp⟩
        intro j hj
        dsimp only at hj ⊢
        obtain ⟨hlt, hidx⟩ := hbound j hj
        refine ⟨by omega, ?_⟩
        rw [listGetD_set_ne (by omega)]
        exact hidx
  | addPred b p =>
      simp only [step] at hstep
      split at hstep
      · next hc =>
          simp only [Option.some.injEq] at hstep
          subst hstep
          obtain ⟨hlen, hidx⟩ := addPredecessor_preserves_index g.all_blocks b p
            (by omega) (by omega)
          refine ⟨⟨by dsimp only; omega, ?_⟩, hcomp⟩
          intro j hj
          dsimp only at hj ⊢
          obtain ⟨hlt, hix⟩ := hbound j hj
          exact ⟨hlt, by rw [hidx]; exact hix⟩
      · cases hstep
  | bind b =>
      simp only [step] at hstep
      split at hstep
      · next hb =>
          split at hstep
          · simp only [Option.some.injEq] at hstep
            subst hstep
            exact ⟨⟨hpool, hbound⟩, hcomp⟩
          · next hcond =>
              split at hstep
              · next hdchk =>
                  simp only [Option.some.injEq] at hstep
                  subst hstep
                  unfold Graph.AddBlock
                  rw [if_neg hcond]
                  dsimp only
                  refine ⟨⟨by dsimp only; simp only [List.length_set]; omega, ?_⟩, hcomp⟩
                  intro j hj
                  dsimp only at hj ⊢
                  simp only [List.length_append, List.length_cons,
                    List.length_nil] at hj
                  by_cases hj2 : j < g.bound_blocks.length
                  · obtain ⟨hlt, hix⟩ := hbound j hj2
                    rw [listGetD_append_left hj2]
                    refine ⟨hlt, ?_⟩
                    rw [listGetD_set_ne ?_]
                    · exact hix
                    · intro hbij
                      rw [← hbij] at hix
                      rw [hdchk.1] at hix
                      cases hix
                  · have hjeq : j = g.bound_blocks.length := by omega
                    subst hjeq
                    rw [listGetD_append_length]
                    refine ⟨by omega, ?_⟩
                    rw [listGetD_set_self (by omega)]
              · cases hstep
      · cases hstep
  | finalize b =>
      simp only [step] at hstep
      split at hstep
      · next hc =>
          simp only [Option.some.injEq] at hstep
          subst hstep
          refine ⟨⟨?_, ?_⟩, hcomp⟩
          · simp only [Graph.Finalize]
            simp only [List.length_set]
            omega
          intro j hj
          simp only [Graph.Finalize] at hj ⊢
          obtain ⟨hlt, hix⟩ := hbound j hj
          refine ⟨hlt, ?_⟩
          by_cases hqb : g.bound_blocks.getD j 0 = b
          · rw [hqb, listGetD_set_self (by omega)]
            rw [hqb] at hix
            exact hix
          · rw [listGetD_set_ne (fun hh => hqb hh.symm)]
            exact hix
      · cases hstep
  | allocateOp n content =>
      simp only [step, Option.some.injEq] at hstep
      subst hstep
      exact ⟨⟨hpool, hbound⟩, hcomp⟩
  | removeLast =>
      simp only [step, Option.some.injEq] at hstep
      subst hstep
      exact ⟨⟨hpool, hbound⟩, hcomp⟩
  | reset =>
      simp only [step, Option.some.injEq] at hstep
      subst hstep
      refine ⟨⟨by simp [Graph.Reset], ?_⟩, hcomp⟩
      intro j hj
      simp [Graph.Reset] at hj
  | swap =>
      simp only [step, Option.some.injEq] at hstep
      subst hstep
      cases hc : g.companion with
      | some d =>
          simp only [Graph.SwapWithCompanion, Graph.GetOrCreateCompanion, hc]
          exact ⟨hcomp d hc, fun d' hd' => by cases hd'; exact ⟨hpool, hbound⟩⟩
      | none =>
          simp only [Graph.SwapWithCompanion, Graph.GetOrCreateCompanion, hc]
          exact ⟨DataInv_mkGraphData _, fun d' hd' => by cases hd'; exact ⟨hpool, hbound⟩⟩

theorem runTrace_preserves_inv (evs : List GEvent) : ∀ g g', GraphInv g →
    runTrace g evs = some g' → GraphInv g' := by
  induction evs with
  | nil =>
      intro g g' hg h
      cases h
      exact hg
  | cons e es ih =>
      intro g g' hg h
      simp only [runTrace] at h
      cases hstep : step g e with
      | none => rw [hstep] at h; cases h
      | some g1 =>
          rw [hstep] at h
          exact ih g1 g' (step_preserves_inv g e g1 hg hstep) h

/-- **C9**: in every state reachable from a fresh graph by the
debug-checked trace semantics, the `BlockIndex` stored in a bound block
equals the block's position in the bound-block list, so looking the block
up again through its own index (`Get(b.index())`) returns the same
block. -/
theorem blockindex_roundtrip (cap : Nat) (evs : List GEvent) (g : Graph)
    (h : runTrace (Graph.mkGraph cap) evs = some g) (j : Nat)
    (hj : j < g.bound_blocks.length) :
    (g.all_blocks.getD (g.GetBlock j) Block.dummy).index_ = some j ∧
    g.GetBlock ((g.all_blocks.getD (g.GetBlock j) Block.dummy).index_.getD 0) =
      g.GetBlock j := by
  have hinv := runTrace_preserves_inv evs (Graph.mkGraph cap) g (GraphInv_mkGraph cap) h
  obtain ⟨⟨-, hbound⟩, -⟩ := hinv
  obtain ⟨-, h2⟩ := hbound j hj
  simp only [Graph.GetBlock]
  refine ⟨h2, ?_⟩
  rw [h2]
  rfl

/-! ### Closed corollaries: each theorem with hypotheses, applied at a
concrete input with every hypothesis discharged by evaluation. -/

theorem replace_preserves_size_table_and_stepping_witness :
    twoRunBuffer.WF ∧
    twoRunBuffer.SlotCount ⟨0 * slotSize⟩ = 2 ∧
    0 + 2 ≤ twoRunBuffer.endPos ∧
    twoRunBuffer.sizes.getD (0 + 2 - 1) 0 = 2 ∧
    ((twoRunBuffer.Replace ⟨0 * slotSize⟩ 1 [99]).endPos = twoRunBuffer.endPos ∧
      (twoRunBuffer.Replace ⟨0 * slotSize⟩ 1 [99]).SlotCount ⟨0 * slotSize⟩ = 2 ∧
      (twoRunBuffer.Replace ⟨0 * slotSize⟩ 1 [99]).sizes.getD (0 + 2 - 1) 0 = 2 ∧
      (twoRunBuffer.Replace ⟨0 * slotSize⟩ 1 [99]).Next ⟨0 * slotSize⟩ =
        twoRunBuffer.Next ⟨0 * slotSize⟩ ∧
      (twoRunBuffer.Replace ⟨0 * slotSize⟩ 1 [99]).Previous
          (twoRunBuffer.Next ⟨0 * slotSize⟩) =
        twoRunBuffer.Previous (twoRunBuffer.Next ⟨0 * slotSize⟩)) :=
  ⟨by decide, by decide, by decide, by decide,
    replace_preserves_size_table_and_stepping twoRunBuffer 0 2 1 [99] (by decide)
      (by decide) (by decide) (by decide) (by decide) (by decide) (by decide) (by decide)⟩

theorem bind_deferred_iff_all_preds_deferred_witness :
    0 < oneBlockGraph.all_blocks.length ∧
    (oneBlockGraph.AddBlock 0).2 = true ∧
    ((oneBlockGraph.AddBlock 0).1.all_blocks.getD 0 Block.dummy).deferred =
      (predecessorsOf oneBlockGraph.all_blocks 0).all
        (fun p => (oneBlockGraph.all_blocks.getD p Block.dummy).deferred) :=
  ⟨by decide, by decide,
    bind_deferred_iff_all_preds_deferred oneBlockGraph 0 (by decide) (by decide)⟩

theorem grow_preserves_records_witness :
    fullBuffer.WF ∧
    1 ≤ fullBuffer.SlotCount ⟨0⟩ ∧
    (OpIndex.mk 0).offset / slotSize + fullBuffer.SlotCount ⟨0⟩ ≤ fullBuffer.endPos ∧
    fullBuffer.capacity - fullBuffer.endPos < 3 ∧
    (fullBuffer.AllocateOp 3 [7, 8, 9]).1.getRecord ⟨0⟩ = fullBuffer.getRecord ⟨0⟩ :=
  ⟨by decide, by decide, by decide, by decide,
    grow_preserves_records fullBuffer (by decide) ⟨0⟩ 3 [7, 8, 9] (by decide)
      (by decide) (by decide)⟩

theorem allocSeq_next_previous_witness :
    (OperationBuffer.mkBuffer 2).WF ∧
    (∀ n ∈ [1, 2, 1], 1 ≤ n ∧ n ≤ 65535) ∧
    0 + 1 < [1, 2, 1].length ∧
    ((allocSeq (OperationBuffer.mkBuffer 2) [1, 2, 1]).1.Next
        ((allocSeq (OperationBuffer.mkBuffer 2) [1, 2, 1]).2.getD 0 ⟨0⟩) =
      (allocSeq (OperationBuffer.mkBuffer 2) [1, 2, 1]).2.getD (0 + 1) ⟨0⟩ ∧
    (allocSeq (OperationBuffer.mkBuffer 2) [1, 2, 1]).1.Previous
        ((allocSeq (OperationBuffer.mkBuffer 2) [1, 2, 1]).2.getD (0 + 1) ⟨0⟩) =
      (allocSeq (OperationBuffer.mkBuffer 2) [1, 2, 1]).2.getD 0 ⟨0⟩) :=
  ⟨by decide, by decide, by decide,
    allocSeq_next_previous (OperationBuffer.mkBuffer 2) (by decide) [1, 2, 1]
      (by decide) 0 (by decide)⟩

theorem addBlock_spec_witness :
    0 < oneBlockGraph.all_blocks.length ∧
    (((oneBlockGraph.AddBlock 0).2 = false ↔
        (oneBlockGraph.bound_blocks ≠ [] ∧
          ¬(oneBlockGraph.all_blocks.getD 0 Block.dummy).HasPredecessors)) ∧
      ((oneBlockGraph.AddBlock 0).2 = false → (oneBlockGraph.AddBlock 0).1 = oneBlockGraph) ∧
      ((oneBlockGraph.AddBlock 0).2 = true →
        ((oneBlockGraph.AddBlock 0).1.all_blocks.getD 0 Block.dummy).index_ =
          some oneBlockGraph.bound_blocks.length ∧
        (oneBlockGraph.AddBlock 0).1.bound_blocks = oneBlockGraph.bound_blocks ++ [0])) :=
  ⟨by decide, addBlock_spec oneBlockGraph 0 (by decide)⟩

theorem predecessors_in_call_order_witness :
    (0 : Nat) < (List.replicate 3 (Block.init .kMerge)).length ∧
    ((List.replicate 3 (Block.init .kMerge)).getD 0 Block.dummy).last_predecessor = none ∧
    ([1, 2] : List Nat).Nodup ∧
    predecessorsOf (addPredList (List.replicate 3 (Block.init .kMerge)) 0 [1, 2]) 0 = [1, 2] :=
  ⟨by decide, by decide, by decide,
    predecessors_in_call_order (List.replicate 3 (Block.init .kMerge)) 0 [1, 2]
      (by decide) (by decide) (by decide) (by decide)⟩

theorem allocSeq_size_table_endpoints_witness :
    (OperationBuffer.mkBuffer 2).WF ∧
    1 < [1, 2, 1].length ∧
    ((allocSeq (OperationBuffer.mkBuffer 2) [1, 2, 1]).1.SlotCount
        ((allocSeq (OperationBuffer.mkBuffer 2) [1, 2, 1]).2.getD 1 ⟨0⟩) =
      [1, 2, 1].getD 1 0 ∧
    (allocSeq (OperationBuffer.mkBuffer 2) [1, 2, 1]).1.sizes.getD
        (OpIndex.id ⟨((allocSeq (OperationBuffer.mkBuffer 2) [1, 2, 1]).2.getD 1 ⟨0⟩).offset +
          ([1, 2, 1].getD 1 0 - 1) * slotSize⟩) 0 = [1, 2, 1].getD 1 0) :=
  ⟨by decide, by decide,
    allocSeq_size_table_endpoints (OperationBuffer.mkBuffer 2) (by decide) [1, 2, 1]
      (by decide) 1 (by decide)⟩

theorem swap_twice_restores_data_witness :
    swappedGraph.companion = some swappedGraphCompanion ∧
    swappedGraph.SwapWithCompanion.SwapWithCompanion = swappedGraph :=
  ⟨by decide, (swap_twice_restores_data swappedGraph).2 swappedGraphCompanion (by decide)⟩

theorem blockindex_roundtrip_witness :
    runTrace (Graph.mkGraph 2) twoBlockTrace = some twoBlockGraph ∧
    1 < twoBlockGraph.bound_blocks.length ∧
    ((twoBlockGraph.all_blocks.getD (twoBlockGraph.GetBlock 1) Block.dummy).index_ =
        some 1 ∧
      twoBlockGraph.GetBlock
          ((twoBlockGraph.all_blocks.getD (twoBlockGraph.GetBlock 1) Block.dummy).index_.getD 0) =
        twoBlockGraph.GetBlock 1) :=
  ⟨by decide, by decide,
    blockindex_roundtrip 2 twoBlockTrace twoBlockGraph (by decide) 1 (by decide)⟩

theorem newBlock_fully_reinitialized_witness :
    (Graph.mkGraph 2).next_block ≤ (Graph.mkGraph 2).all_blocks.length ∧
    (((Graph.mkGraph 2).NewBlock .kMerge).2 = (Graph.mkGraph 2).next_block ∧
      (((Graph.mkGraph 2).NewBlock .kMerge).1.all_blocks.getD
          ((Graph.mkGraph 2).NewBlock .kMerge).2 Block.dummy) = Block.init .kMerge) :=
  ⟨by decide, newBlock_fully_reinitialized (Graph.mkGraph 2) .kMerge (by decide)⟩

end Turboshaft
